import Mathlib

/-!
Verification of the region-taxonomy engine (`ibllib/atlas/regions.py`).

The store is the flat, lateralized table of brain regions held by
`BrainRegions` (field arrays `id`, `name`, `acronym`, `rgb`, `level`,
`parent`).  Machine integers are modelled as `Int`/`Nat`; the float `NaN`
used as an absent parent becomes `Option.none`.  The external helper
`iblutil.numerical.ismember(a, b)` is modelled by its documented (matlab)
semantics: a boolean membership mask over `a`, together with, for each
matched element of `a`, the index of its first occurrence in `b`;
`numpy` first-occurrence index lookups are `List.indexOf`.
-/

namespace IblAtlas

/-- One row of the unlateralized source table (`allen_structure_tree.csv`
columns used by `BrainRegions.__init__`). -/
structure Row where
  id : Int
  name : String
  acronym : String
  rgb : Nat
  level : Nat
  parent : Option Int
  deriving Repr, DecidableEq

/-- The dataclass `_BrainRegions`: one list per field, row-aligned. -/
structure Store where
  id : List Int
  name : List String
  acronym : List String
  rgb : List Nat
  level : List Nat
  parent : List (Option Int)
  deriving Repr, DecidableEq

/-- The `Bunch` returned by `BrainRegions.get`: same fields as the store. -/
structure Bunch where
  id : List Int
  name : List String
  acronym : List String
  rgb : List Nat
  level : List Nat
  parent : List (Option Int)
  deriving Repr, DecidableEq

/-- The lateralization step of `BrainRegions.__init__`: the mirrored copy of
a row negates `id` and `parent` and suffixes the name (`' (left)'`). -/
def mirrorRow (r : Row) : Row :=
  { r with id := -r.id, parent := r.parent.map (fun x => -x),
           name := r.name ++ " (left)" }

/-- `BrainRegions.__init__` lateralization: rows with positive id are
duplicated (mirrored) and appended after the original rows. -/
def lateralizeRows (rows : List Row) : List Row :=
  rows ++ (rows.filter (fun r => 0 < r.id)).map mirrorRow

/-- Column extraction: from a row list to the `_BrainRegions` dataclass. -/
def storeOfRows (rows : List Row) : Store :=
  { id := rows.map Row.id, name := rows.map Row.name,
    acronym := rows.map Row.acronym, rgb := rows.map Row.rgb,
    level := rows.map Row.level, parent := rows.map Row.parent }

/-- Insert an integer into a `<`-sorted duplicate-free list, keeping it
sorted and duplicate-free.  Building block for `np.unique`. -/
def insertUnique (x : Int) : List Int → List Int
  | [] => [x]
  | y :: ys =>
    if x < y then x :: y :: ys
    else if x = y then y :: ys
    else y :: insertUnique x ys

/-- `np.unique` on a 1-d integer array: the sorted list of distinct values. -/
def sortedUnique (xs : List Int) : List Int :=
  xs.foldr insertUnique []

/-- `np.intersect1d a b` (values only): sorted distinct values common to
`a` and `b`. -/
def intersectSorted (a b : List Int) : List Int :=
  sortedUnique (a.filter (fun x => x ∈ b))

/-- `uind` of `uid, uind = np.unique(ids, return_inverse=True)`: for each
input id, its index in the sorted unique array. -/
def uindOf (ids : List Int) : List Nat :=
  ids.map (fun x => (sortedUnique ids).indexOf x)

/-- `iself` of `_, iself, _ = np.intersect1d(self.id, uid,
return_indices=True)`: first-occurrence indices into `self.id` of the
values common to `self.id` and `uid`. -/
def iselfOf (st : Store) (ids : List Int) : List Nat :=
  (intersectSorted st.id (sortedUnique ids)).map (fun v => st.id.indexOf v)

/-- The fancy index `iself[uind]` of `BrainRegions.get` (entry-wise). -/
def rowsOf (st : Store) (ids : List Int) : List Nat :=
  (uindOf ids).map (fun j => (iselfOf st ids).getD j 0)

/-- `BrainRegions.get`.  Each output field is `field[iself[uind]]`.  The
fancy index raises `IndexError` when some inverse index reaches beyond
`iself` (which happens whenever an input id is absent from the store):
this is modelled by `none`. -/
def get (st : Store) (ids : List Int) : Option Bunch :=
  if (uindOf ids).all (fun j => j < (iselfOf st ids).length) then
    some { id := (rowsOf st ids).map (fun p => st.id.getD p 0),
           name := (rowsOf st ids).map (fun p => st.name.getD p ""),
           acronym := (rowsOf st ids).map (fun p => st.acronym.getD p ""),
           rgb := (rowsOf st ids).map (fun p => st.rgb.getD p 0),
           level := (rowsOf st ids).map (fun p => st.level.getD p 0),
           parent := (rowsOf st ids).map (fun p => st.parent.getD p none) }
  else none

/-- Boolean selection mask of `_navigate_tree`:
`indices = ismember(self.id, ids)[0]`. -/
def initMask (st : Store) (ids : List Int) : List Bool :=
  st.id.map (fun x => decide (x ∈ ids))

/-- `self.id[indices]`: the id values at currently selected positions. -/
def selIds (st : Store) (mask : List Bool) : List Int :=
  ((List.range st.id.length).filter (fun p => mask.getD p false)).map
    (fun p => st.id.getD p 0)

/-- `self.parent[indices]`: the parent values at selected positions. -/
def selParents (st : Store) (mask : List Bool) : List (Option Int) :=
  ((List.range st.id.length).filter (fun p => mask.getD p false)).map
    (fun p => st.parent.getD p none)

/-- One pass of the closure loop of `_navigate_tree`:
`down`: `indices |= ismember(self.parent, self.id[indices])[0]`;
`up`: `indices |= ismember(self.id, self.parent[indices])[0]`.
A `NaN` parent (here `none`) never matches any id. -/
def stepMask (st : Store) (direction : String) (mask : List Bool) : List Bool :=
  if direction = "down" then
    (List.range st.id.length).map (fun p =>
      mask.getD p false ||
        (match st.parent.getD p none with
         | some v => decide (v ∈ selIds st mask)
         | none => false))
  else
    (List.range st.id.length).map (fun p =>
      mask.getD p false ||
        decide ((some (st.id.getD p 0)) ∈ selParents st mask))

/-- The number of selected positions, `np.sum(indices)`. -/
def countTrue (mask : List Bool) : Nat :=
  mask.count true

/-- The `while True` fixed-point loop of `_navigate_tree`, with explicit
fuel: apply one pass; exit when the selected count is unchanged.  `none`
models non-termination within the given fuel (never reached with fuel
`store size + 1`, see `navLoop_some_of_fuel`). -/
def navLoop (st : Store) (direction : String) :
    Nat → List Bool → Option (List Bool)
  | 0, _ => none
  | fuel + 1, mask =>
    let m := stepMask st direction mask
    if countTrue m = countTrue mask then some m
    else navLoop st direction fuel m

/-- `BrainRegions._navigate_tree`: reject a direction outside
`{'up', 'down'}` with `ValueError`, otherwise run the closure loop to its
fixed point and return `self.get(self.id[indices])`. -/
def navigateTree (st : Store) (ids : List Int) (direction : String) :
    Except String Bunch :=
  if direction = "down" ∨ direction = "up" then
    match navLoop st direction (st.id.length + 1) (initMask st ids) with
    | some m =>
      match get st (selIds st m) with
      | some b => Except.ok b
      | none => Except.error "IndexError"
    | none => Except.error "non-termination"
  else Except.error "direction should be either 'up' or 'down'"

/-- `BrainRegions.descendants(x).id` for a single seed id `x` (the only
use `_mapping_from_regions_list` makes of the navigator). -/
def descendantsIdField (st : Store) (x : Int) : List Int :=
  match navigateTree st [x] "down" with
  | Except.ok b => b.id
  | Except.error _ => []

/-- The symmetrization step of `_mapping_from_regions_list`:
`new_map = np.unique(np.r_[-new_map, new_map])`. -/
def symmetrize (s : List Int) : List Int :=
  sortedUnique (s.map (fun x => -x) ++ s)

/-- `iid = np.where(ismember(self.id, new_map)[0])[0]`: the ascending list
of store positions whose id belongs to the symmetrized scheme. -/
def iidOf (st : Store) (nm : List Int) : List Nat :=
  (List.range st.id.length).filter (fun p => st.id.getD p 0 ∈ nm)

/-- The sort key of `np.argsort(self.level[iid])`: the level of the
`i`-th scheme member. -/
def levelKey (st : Store) (iid : List Nat) (i : Nat) : Nat :=
  st.level.getD (iid.getD i 0) 0

/-- `np.argsort(self.level[iid])`, modelled as a key-sorted permutation of
`0, ..., iid.length - 1` (numpy leaves the relative order of equal keys
unspecified; every theorem below uses only sortedness and permutation). -/
def argsortLevels (st : Store) (iid : List Nat) : List Nat :=
  List.insertionSort (fun a b => levelKey st iid a ≤ levelKey st iid b)
    (List.range iid.length)

/-- `_, idesc, _ = np.intersect1d(self.id, descendants, return_indices=True)`
as a position set: the positions that are the first occurrence of their id
value and whose id value is a descendant. -/
def idescOf (st : Store) (descs : List Int) : List Nat :=
  (List.range st.id.length).filter (fun p =>
    st.id.getD p 0 ∈ descs ∧ st.id.indexOf (st.id.getD p 0) = p)

/-- `mapind[idesc] = iid[i]` for one scheme member. -/
def assignAll (ps : List Nat) (v : Nat) (m : List Nat) : List Nat :=
  ps.foldl (fun acc p => acc.set p v) m

/-- The positions written for scheme member `i` in the loop of
`_mapping_from_regions_list`: the first-occurrence store positions of the
member's descendant ids. -/
def memberWrites (st : Store) (iid : List Nat) (i : Nat) : List Nat :=
  idescOf st (descendantsIdField st (st.id.getD (iid.getD i 0) 0))

/-- `mapind = np.zeros_like(self.id) + I_ROOT; mapind[iid] = iid`:
everything defaults to the root position `1`, scheme positions self-map. -/
def mapind1Of (st : Store) (nm : List Int) : List Nat :=
  (iidOf st nm).foldl (fun acc p => acc.set p p)
    ((List.range st.id.length).map (fun _ => 1))

/-- The level-ascending subtree-assignment loop of
`_mapping_from_regions_list`. -/
def mapind2Of (st : Store) (nm : List Int) : List Nat :=
  (argsortLevels st (iidOf st nm)).foldl (fun acc i =>
    assignAll (memberWrites st (iidOf st nm) i) ((iidOf st nm).getD i 0) acc)
    (mapind1Of st nm)

/-- `mapind[0] = I_VOID`: void stays void. -/
def mapind3Of (st : Store) (nm : List Int) : List Nat :=
  (mapind2Of st nm).set 0 0

/-- `_, iregion = ismember(np.abs(self.id), self.id)`: for each position,
the first-occurrence position of its unsigned id (unmatched entries are
dropped by `ismember`). -/
def iregionOf (st : Store) : List Nat :=
  ((st.id.map (fun x => (x.natAbs : Int))).filter
    (fun v => v ∈ st.id)).map (fun v => st.id.indexOf v)

/-- Whether store position `p` is inside the written descendant set of at
least one scheme member (the positions the assignment loop touches). -/
def coveredB (st : Store) (nm : List Int) (p : Nat) : Bool :=
  (List.range (iidOf st nm).length).any
    (fun i => decide (p ∈ memberWrites st (iidOf st nm) i))

/-- `BrainRegions._mapping_from_regions_list` after symmetrization:
validate, initialize to root (`I_ROOT = 1`), self-map scheme positions,
assign descendants in ascending level order, pin void (`mapind[0] = 0`),
and delateralize through `ismember(np.abs(self.id), self.id)` when
requested.  The failed `assert` is modelled by `none`. -/
def mapFromNm (st : Store) (nm : List Int) (lateralize : Bool) :
    Option (List Nat) :=
  if nm.all (fun x => x ∈ st.id) then
    if lateralize then some (mapind3Of st nm)
    else some ((iregionOf st).map (fun q => (mapind3Of st nm).getD q 0))
  else none

/-- `BrainRegions._mapping_from_regions_list`. -/
def mappingFromRegionsList (st : Store) (newMap : List Int)
    (lateralize : Bool) : Option (List Nat) :=
  mapFromNm st (symmetrize newMap) lateralize

/-- `BrainRegions.remap`: locate the queried ids in
`self.id[self.mappings[source_map]]` (unmatched ids are dropped by
`ismember`), then read `self.id[self.mappings[target_map][inds]]`. -/
def remap (st : Store) (sourceMap targetMap : List Nat)
    (regionIds : List Int) : List Int :=
  let srcIds := sourceMap.map (fun p => st.id.getD p 0)
  let inds := (regionIds.filter (fun x => x ∈ srcIds)).map
    (fun x => srcIds.indexOf x)
  inds.map (fun j => st.id.getD (targetMap.getD j 0) 0)

/-- `BrainRegions._filter_lr_acro`: hemisphere-filtered index selection
with the hardcoded left-hemisphere offset `1327`.  `'lr' in mapping` is
the substring test; the two-column `np.c_[values + 1327, values]` result
(left first) is a pair list. -/
def filterLrAcro (values : List Nat) (mapping : String)
    (hemisphere : Option String) : Sum (List Nat) (List (Nat × Nat)) :=
  if hemisphere = some "left" then Sum.inl (values.map (fun v => v + 1327))
  else if hemisphere = some "right" then Sum.inl values
  else if (mapping.splitOn "lr").length > 1 then
    Sum.inr (values.map (fun v => (v + 1327, v)))
  else Sum.inl values

/-- Fixture rows for the spec's test tree `root → A → {B, C}`, `B → {D}`,
with the void sentinel first (id 0) and ids `root = 1, A = 2, B = 3,
C = 4, D = 5`. -/
def fixtureRows : List Row :=
  [ { id := 0, name := "void", acronym := "void", rgb := 0, level := 0,
      parent := none },
    { id := 1, name := "root", acronym := "root", rgb := 1, level := 0,
      parent := none },
    { id := 2, name := "A", acronym := "A", rgb := 2, level := 1,
      parent := some 1 },
    { id := 3, name := "B", acronym := "B", rgb := 3, level := 2,
      parent := some 2 },
    { id := 4, name := "C", acronym := "C", rgb := 4, level := 2,
      parent := some 2 },
    { id := 5, name := "D", acronym := "D", rgb := 5, level := 3,
      parent := some 3 } ]

/-- The lateralized fixture store (11 rows: 6 original + 5 mirrored). -/
def fixtureStore : Store :=
  storeOfRows (lateralizeRows fixtureRows)

/-- Pointwise ordering of boolean masks: whatever the first selects, the
second selects too (out-of-range positions count as unselected). -/
def pointwiseLe (a b : List Bool) : Prop :=
  ∀ p, a.getD p false = true → b.getD p false = true

/-- A junk row used as `getD` default in row-layout statements. -/
def blankRow : Row :=
  { id := 0, name := "", acronym := "", rgb := 0, level := 0, parent := none }

/-! ### Generic list access helpers -/

theorem getD_map_of_lt {α β : Type} (f : α → β) (l : List α) (k : Nat)
    (hk : k < l.length) (d : β) (e : α) :
    (l.map f).getD k d = f (l.getD k e) := by
  rw [List.getD_eq_getElem (l.map f) d (by simpa using hk), List.getElem_map,
      List.getD_eq_getElem l e hk]

theorem getD_range_of_lt (n p : Nat) (hp : p < n) (d : Nat) :
    (List.range n).getD p d = p := by
  rw [List.getD_eq_getElem _ _ (by simpa using hp), List.getElem_range]

theorem getD_indexOf {α : Type} [DecidableEq α] {l : List α} {a : α}
    (h : a ∈ l) (d : α) : l.getD (l.indexOf a) d = a := by
  rw [List.getD_eq_getElem _ _ (List.indexOf_lt_length.2 h)]
  exact List.getElem_indexOf _

theorem getD_mem_of_lt {α : Type} (l : List α) (p : Nat)
    (hp : p < l.length) (d : α) : l.getD p d ∈ l := by
  rw [List.getD_eq_getElem _ _ hp]; exact List.getElem_mem _

theorem indexOf_getD_of_nodup {α : Type} [DecidableEq α] {l : List α}
    (hn : l.Nodup) {p : Nat} (hp : p < l.length) (d : α) :
    l.indexOf (l.getD p d) = p := by
  rw [List.getD_eq_getElem _ _ hp]
  have hmem : l[p] ∈ l := List.getElem_mem hp
  exact (List.Nodup.getElem_inj_iff hn).mp
    (List.getElem_indexOf (List.indexOf_lt_length.2 hmem))

theorem getD_set_self (l : List Nat) (p v : Nat) (hp : p < l.length) :
    (l.set p v).getD p 0 = v := by
  rw [List.getD_eq_getElem _ _ (by simpa using hp)]
  exact List.getElem_set_self _

theorem getD_set_ne (l : List Nat) (p q v : Nat) (h : p ≠ q) :
    (l.set p v).getD q 0 = l.getD q 0 := by
  by_cases hq : q < l.length
  · rw [List.getD_eq_getElem _ _ (by simpa using hq),
        List.getElem_set_ne h, List.getD_eq_getElem _ _ hq]
  · rw [List.getD_eq_default _ _ (by simpa using Nat.le_of_not_lt hq),
        List.getD_eq_default _ _ (Nat.le_of_not_lt hq)]

/-! ### `sortedUnique` (`np.unique`) -/

theorem mem_insertUnique (x a : Int) :
    ∀ l : List Int, a ∈ insertUnique x l ↔ a = x ∨ a ∈ l := by
  intro l
  induction l with
  | nil => simp [insertUnique]
  | cons y ys ih =>
    by_cases h1 : x < y
    · simp [insertUnique, h1]
    · by_cases h2 : x = y
      · subst h2; simp [insertUnique, h1]
      · simp only [insertUnique, if_neg h1, if_neg h2, List.mem_cons, ih]
        tauto

theorem sorted_insertUnique (x : Int) (l : List Int)
    (hs : l.Sorted (· < ·)) : (insertUnique x l).Sorted (· < ·) := by
  induction l with
  | nil => simp [insertUnique]
  | cons y ys ih =>
    rw [List.sorted_cons] at hs
    by_cases h1 : x < y
    · rw [insertUnique, if_pos h1, List.sorted_cons]
      refine ⟨?_, List.sorted_cons.2 hs⟩
      intro b hb
      rcases List.mem_cons.1 hb with h | h
      · exact h ▸ h1
      · exact lt_trans h1 (hs.1 b h)
    · by_cases h2 : x = y
      · rw [insertUnique, if_neg h1, if_pos h2, List.sorted_cons]
        exact hs
      · rw [insertUnique, if_neg h1, if_neg h2, List.sorted_cons]
        refine ⟨?_, ih hs.2⟩
        intro b hb
        rcases (mem_insertUnique x b ys).1 hb with h | h
        · subst h; omega
        · exact hs.1 b h

theorem sorted_sortedUnique (xs : List Int) :
    (sortedUnique xs).Sorted (· < ·) := by
  induction xs with
  | nil => simp [sortedUnique]
  | cons y ys ih => exact sorted_insertUnique y _ ih

theorem mem_sortedUnique (a : Int) (xs : List Int) :
    a ∈ sortedUnique xs ↔ a ∈ xs := by
  induction xs with
  | nil => simp [sortedUnique]
  | cons y ys ih =>
    simp only [sortedUnique, List.foldr_cons, mem_insertUnique,
      List.mem_cons]
    rw [sortedUnique] at ih
    rw [ih]

theorem nodup_sortedUnique (xs : List Int) : (sortedUnique xs).Nodup :=
  (sorted_sortedUnique xs).nodup

theorem sortedUnique_congr (xs ys : List Int)
    (h : ∀ a, a ∈ xs ↔ a ∈ ys) : sortedUnique xs = sortedUnique ys := by
  apply List.eq_of_perm_of_sorted _ (sorted_sortedUnique xs)
    (sorted_sortedUnique ys)
  rw [List.perm_ext_iff_of_nodup (nodup_sortedUnique xs)
    (nodup_sortedUnique ys)]
  intro a
  rw [mem_sortedUnique, mem_sortedUnique]
  exact h a

theorem sortedUnique_eq_self (xs : List Int) (hs : xs.Sorted (· < ·)) :
    sortedUnique xs = xs := by
  apply List.eq_of_perm_of_sorted _ (sorted_sortedUnique xs) hs
  rw [List.perm_ext_iff_of_nodup (nodup_sortedUnique xs) hs.nodup]
  intro a
  exact mem_sortedUnique a xs

theorem list_ext_getD {α : Type} (d : α) (l1 l2 : List α)
    (hl : l1.length = l2.length)
    (h : ∀ k, k < l1.length → l1.getD k d = l2.getD k d) : l1 = l2 := by
  apply List.ext_getElem hl
  intro k h1 h2
  have hk := h k h1
  rwa [List.getD_eq_getElem _ _ h1, List.getD_eq_getElem _ _ h2] at hk

/-! ### `get` -/

theorem mem_intersectSorted (a : Int) (l b : List Int) :
    a ∈ intersectSorted l b ↔ a ∈ l ∧ a ∈ b := by
  rw [intersectSorted, mem_sortedUnique, List.mem_filter]
  simp

theorem intersectSorted_of_subset (l ids : List Int)
    (h : ∀ x ∈ ids, x ∈ l) :
    intersectSorted l (sortedUnique ids) = sortedUnique ids := by
  rw [intersectSorted]
  apply sortedUnique_congr
  intro a
  rw [List.mem_filter]
  constructor
  · intro ⟨_, hb⟩
    exact (mem_sortedUnique a ids).1 (by simpa using hb)
  · intro ha
    exact ⟨h a ha, by simpa using (mem_sortedUnique a ids).2 ha⟩

theorem length_uindOf (ids : List Int) : (uindOf ids).length = ids.length :=
  List.length_map _ _

theorem length_rowsOf (st : Store) (ids : List Int) :
    (rowsOf st ids).length = ids.length := by
  rw [rowsOf, List.length_map, length_uindOf]

theorem rowsOf_getD (st : Store) (ids : List Int)
    (h : ∀ x ∈ ids, x ∈ st.id) (k : Nat) (hk : k < ids.length) :
    (rowsOf st ids).getD k 0 = st.id.indexOf (ids.getD k 0) := by
  have hx : ids.getD k 0 ∈ ids := getD_mem_of_lt ids k hk 0
  have hxu : ids.getD k 0 ∈ sortedUnique ids := (mem_sortedUnique _ ids).2 hx
  have h1 : (rowsOf st ids).getD k 0 =
      (iselfOf st ids).getD ((uindOf ids).getD k 0) 0 :=
    getD_map_of_lt _ (uindOf ids) k (by rwa [length_uindOf]) 0 0
  have h2 : (uindOf ids).getD k 0 =
      (sortedUnique ids).indexOf (ids.getD k 0) :=
    getD_map_of_lt _ ids k hk 0 0
  rw [h1, h2, iselfOf, intersectSorted_of_subset st.id ids h,
      getD_map_of_lt _ (sortedUnique ids) _
        (List.indexOf_lt_length.2 hxu) 0 0,
      getD_indexOf hxu 0]

/-- Shared success lemma for `get` on inputs fully contained in the
store: the call succeeds, the output id field equals the input, every
field has the input's length, and the `k`-th output row is the store row
of `ids[k]`. -/
theorem get_ok (st : Store) (ids : List Int)
    (h : ∀ x ∈ ids, x ∈ st.id) :
    ∃ b : Bunch, get st ids = some b ∧ b.id = ids ∧
      b.id.length = ids.length ∧ b.name.length = ids.length ∧
      b.acronym.length = ids.length ∧ b.rgb.length = ids.length ∧
      b.level.length = ids.length ∧ b.parent.length = ids.length ∧
      ∀ k, k < ids.length →
        ∃ p, p < st.id.length ∧ st.id.getD p 0 = ids.getD k 0 ∧
          b.id.getD k 0 = st.id.getD p 0 ∧
          b.name.getD k "" = st.name.getD p "" ∧
          b.acronym.getD k "" = st.acronym.getD p "" ∧
          b.rgb.getD k 0 = st.rgb.getD p 0 ∧
          b.level.getD k 0 = st.level.getD p 0 ∧
          b.parent.getD k none = st.parent.getD p none := by
  have hguard : ((uindOf ids).all
      (fun j => j < (iselfOf st ids).length)) = true := by
    rw [List.all_eq_true]
    intro j hj
    rcases List.mem_map.1 hj with ⟨x, hx, rfl⟩
    have hxu : x ∈ sortedUnique ids := (mem_sortedUnique x ids).2 hx
    rw [iselfOf, intersectSorted_of_subset st.id ids h, List.length_map]
    exact decide_eq_true (List.indexOf_lt_length.2 hxu)
  rw [get, if_pos hguard]
  refine ⟨_, rfl, ?_, ?_, ?_, ?_, ?_, ?_, ?_, ?_⟩
  · -- b.id = ids
    apply list_ext_getD 0
    · rw [List.length_map, length_rowsOf]
    · intro k hk
      rw [List.length_map, length_rowsOf] at hk
      have hx : ids.getD k 0 ∈ ids := getD_mem_of_lt ids k hk 0
      rw [getD_map_of_lt _ (rowsOf st ids) k (by rwa [length_rowsOf]) 0 0,
          rowsOf_getD st ids h k hk, getD_indexOf (h _ hx) 0]
  · rw [List.length_map, length_rowsOf]
  · rw [List.length_map, length_rowsOf]
  · rw [List.length_map, length_rowsOf]
  · rw [List.length_map, length_rowsOf]
  · rw [List.length_map, length_rowsOf]
  · rw [List.length_map, length_rowsOf]
  · intro k hk
    have hx : ids.getD k 0 ∈ ids := getD_mem_of_lt ids k hk 0
    have hrow : k < (rowsOf st ids).length := by rwa [length_rowsOf]
    refine ⟨st.id.indexOf (ids.getD k 0),
      List.indexOf_lt_length.2 (h _ hx), getD_indexOf (h _ hx) 0,
      ?_, ?_, ?_, ?_, ?_, ?_⟩
    all_goals
      rw [getD_map_of_lt _ (rowsOf st ids) k hrow _ 0,
          rowsOf_getD st ids h k hk]

/-- `C1`: for every input sequence whose ids are all present in the
store, `get` succeeds, every output field has the same length as the
input, and the `k`-th output row is the store row of `ids[k]` — order
and multiplicity of the input are preserved, including repeats. -/
theorem get_spec (st : Store) (ids : List Int)
    (h : ∀ x ∈ ids, x ∈ st.id) :
    ∃ b : Bunch, get st ids = some b ∧ b.id = ids ∧
      b.id.length = ids.length ∧ b.name.length = ids.length ∧
      b.acronym.length = ids.length ∧ b.rgb.length = ids.length ∧
      b.level.length = ids.length ∧ b.parent.length = ids.length ∧
      ∀ k, k < ids.length →
        ∃ p, p < st.id.length ∧ st.id.getD p 0 = ids.getD k 0 ∧
          b.id.getD k 0 = st.id.getD p 0 ∧
          b.name.getD k "" = st.name.getD p "" ∧
          b.acronym.getD k "" = st.acronym.getD p "" ∧
          b.rgb.getD k 0 = st.rgb.getD p 0 ∧
          b.level.getD k 0 = st.level.getD p 0 ∧
          b.parent.getD k none = st.parent.getD p none :=
  get_ok st ids h

/-- `C1` witness: a concrete call on the fixture store with a repeated
input id. -/
theorem get_spec_witness :
    ∃ b : Bunch, get fixtureStore [3, -2, 3] = some b ∧
      b.id = [3, -2, 3] ∧
      b.id.length = 3 ∧ b.name.length = 3 ∧ b.acronym.length = 3 ∧
      b.rgb.length = 3 ∧ b.level.length = 3 ∧ b.parent.length = 3 ∧
      ∀ k, k < 3 →
        ∃ p, p < fixtureStore.id.length ∧
          fixtureStore.id.getD p 0 = [(3 : Int), -2, 3].getD k 0 ∧
          b.id.getD k 0 = fixtureStore.id.getD p 0 ∧
          b.name.getD k "" = fixtureStore.name.getD p "" ∧
          b.acronym.getD k "" = fixtureStore.acronym.getD p "" ∧
          b.rgb.getD k 0 = fixtureStore.rgb.getD p 0 ∧
          b.level.getD k 0 = fixtureStore.level.getD p 0 ∧
          b.parent.getD k none = fixtureStore.parent.getD p none :=
  get_spec fixtureStore [3, -2, 3] (by decide)

/-- `C2` (amended): whenever some input id is absent from the store, the
inverse index reaches past the end of `iself` and the fancy index
`iself[uind]` fails (`IndexError`), modelled by `none`: `get` returns no
result at all instead of silently dropping the unmatched ids. -/
theorem get_absent_none (st : Store) (ids : List Int)
    (h : ∃ x ∈ ids, x ∉ st.id) : get st ids = none := by
  rcases h with ⟨x, hx, hxid⟩
  have hxu : x ∈ sortedUnique ids := (mem_sortedUnique x ids).2 hx
  have hne : sortedUnique ids ≠ [] := List.ne_nil_of_mem hxu
  have hsub : ∀ a ∈ intersectSorted st.id (sortedUnique ids),
      a ∈ sortedUnique ids := by
    intro a ha
    exact ((mem_intersectSorted a _ _).1 ha).2
  have hxc : x ∉ intersectSorted st.id (sortedUnique ids) := by
    intro hc
    exact hxid ((mem_intersectSorted x _ _).1 hc).1
  have hcard : (intersectSorted st.id (sortedUnique ids)).length <
      (sortedUnique ids).length := by
    have hss : (intersectSorted st.id (sortedUnique ids)).toFinset ⊂
        (sortedUnique ids).toFinset := by
      refine HasSubset.Subset.ssubset_of_not_subset ?_ ?_
      · intro a ha
        rw [List.mem_toFinset] at *
        exact hsub a ha
      · intro hsup
        exact hxc (List.mem_toFinset.1 (hsup (List.mem_toFinset.2 hxu)))
    have hc := Finset.card_lt_card hss
    rwa [List.toFinset_card_of_nodup (nodup_sortedUnique _),
         List.toFinset_card_of_nodup
           (by rw [intersectSorted]; exact nodup_sortedUnique _)] at hc
  have hglast : (sortedUnique ids).getLast hne ∈ ids :=
    (mem_sortedUnique _ ids).1 (List.getLast_mem hne)
  have hidxlast : (sortedUnique ids).indexOf ((sortedUnique ids).getLast hne)
      = (sortedUnique ids).length - 1 := by
    rw [List.getLast_eq_getElem,
        ← List.getD_eq_getElem (sortedUnique ids) 0
          (by have := List.length_pos.2 hne; omega)]
    exact indexOf_getD_of_nodup (nodup_sortedUnique ids)
      (by have := List.length_pos.2 hne; omega) 0
  rw [get, if_neg]
  intro hall
  rw [List.all_eq_true] at hall
  have hj : (sortedUnique ids).indexOf ((sortedUnique ids).getLast hne) ∈
      uindOf ids := List.mem_map.2 ⟨_, hglast, rfl⟩
  have hlt := of_decide_eq_true (hall _ hj)
  rw [iselfOf, List.length_map, hidxlast] at hlt
  have hpos := List.length_pos.2 hne
  omega

/-- `C2` counterexample: on the fixture store, an input containing the
absent id `7` makes `get` fail (return `none`) — it does not return a
shortened result. -/
theorem get_absent_counterexample : get fixtureStore [3, 7] = none := by
  decide

/-- `C2` witness: the amended theorem applied at a concrete input. -/
theorem get_absent_none_witness : get fixtureStore [2, 99, 2] = none :=
  get_absent_none fixtureStore [2, 99, 2] ⟨99, by decide, by decide⟩

/-! ### `_navigate_tree`: rejection and termination -/

/-- `C3`: any direction outside `{'up', 'down'}` makes `_navigate_tree`
fail with the `ValueError`, for every seed set — no partial result. -/
theorem navigateTree_invalid_direction (st : Store) (ids : List Int)
    (d : String) (h1 : d ≠ "down") (h2 : d ≠ "up") :
    navigateTree st ids d =
      Except.error "direction should be either 'up' or 'down'" := by
  rw [navigateTree, if_neg]
  tauto

/-- `C3` witness: a concrete invalid direction on the fixture store. -/
theorem navigateTree_invalid_direction_witness :
    navigateTree fixtureStore [2] "sideways" =
      Except.error "direction should be either 'up' or 'down'" :=
  navigateTree_invalid_direction fixtureStore [2] "sideways"
    (by decide) (by decide)

theorem length_initMask (st : Store) (ids : List Int) :
    (initMask st ids).length = st.id.length :=
  List.length_map _ _

theorem length_stepMask (st : Store) (d : String) (mask : List Bool) :
    (stepMask st d mask).length = st.id.length := by
  rw [stepMask]
  split <;> rw [List.length_map, List.length_range]

theorem stepMask_mono (st : Store) (d : String) (mask : List Bool)
    (hlen : mask.length = st.id.length) :
    pointwiseLe mask (stepMask st d mask) := by
  intro p hp
  have hplt : p < st.id.length := by
    by_contra hge
    rw [List.getD_eq_default mask false (by omega)] at hp
    exact absurd hp (by simp)
  rw [stepMask]
  split
  · rw [getD_map_of_lt _ (List.range st.id.length) p (by simpa using hplt)
        false 0, getD_range_of_lt _ _ hplt, hp]
    simp
  · rw [getD_map_of_lt _ (List.range st.id.length) p (by simpa using hplt)
        false 0, getD_range_of_lt _ _ hplt, hp]
    simp

theorem countTrue_le_length (mask : List Bool) :
    countTrue mask ≤ mask.length :=
  List.count_le_length true mask

theorem countTrue_cons (x : Bool) (xs : List Bool) :
    countTrue (x :: xs) = countTrue xs + (if x = true then 1 else 0) := by
  cases x <;> simp [countTrue, List.count_cons]

theorem pointwiseLe_cons {x y : Bool} {xs ys : List Bool}
    (h : pointwiseLe (x :: xs) (y :: ys)) :
    (x = true → y = true) ∧ pointwiseLe xs ys := by
  constructor
  · intro hx
    have h0 := h 0
    simpa [hx] using h0
  · intro p hp
    have hs := h (p + 1)
    simpa using hs hp

theorem countTrue_le_of_pointwiseLe :
    ∀ (a b : List Bool), a.length = b.length → pointwiseLe a b →
      countTrue a ≤ countTrue b := by
  intro a
  induction a with
  | nil => intro b _ _; simp [countTrue]
  | cons x xs ih =>
    intro b hlen hle
    cases b with
    | nil => simp at hlen
    | cons y ys =>
      have h := pointwiseLe_cons hle
      have hrec := ih ys (by simpa using hlen) h.2
      cases x <;> cases y
      · simpa [countTrue_cons] using hrec
      · simp only [countTrue_cons]
        simp
        omega
      · exact absurd (h.1 rfl) (by simp)
      · simp only [countTrue_cons]
        simp
        omega

theorem eq_of_pointwiseLe_of_count :
    ∀ (a b : List Bool), a.length = b.length → pointwiseLe a b →
      countTrue b ≤ countTrue a → a = b := by
  intro a
  induction a with
  | nil =>
    intro b hlen _ _
    cases b with
    | nil => rfl
    | cons y ys => simp at hlen
  | cons x xs ih =>
    intro b hlen hle hcount
    cases b with
    | nil => simp at hlen
    | cons y ys =>
      have h := pointwiseLe_cons hle
      have hlexs := countTrue_le_of_pointwiseLe xs ys (by simpa using hlen)
        h.2
      rw [countTrue_cons, countTrue_cons] at hcount
      cases x <;> cases y
      · simp at hcount
        have hxy : xs = ys := ih ys (by simpa using hlen) h.2 (by omega)
        rw [hxy]
      · exfalso
        simp at hcount
        omega
      · exact absurd (h.1 rfl) (by simp)
      · simp at hcount
        have hxy : xs = ys := ih ys (by simpa using hlen) h.2 (by omega)
        rw [hxy]

theorem navLoop_some_of_fuel (st : Store) (d : String) :
    ∀ (fuel : Nat) (mask : List Bool), mask.length = st.id.length →
      st.id.length + 1 ≤ fuel + countTrue mask →
      ∃ m, navLoop st d fuel mask = some m ∧ pointwiseLe mask m ∧
        stepMask st d m = m ∧ m.length = st.id.length := by
  intro fuel
  induction fuel with
  | zero =>
    intro mask hlen hfuel
    exfalso
    have := countTrue_le_length mask
    omega
  | succ fuel ih =>
    intro mask hlen hfuel
    by_cases heq : countTrue (stepMask st d mask) = countTrue mask
    · have hmeq : stepMask st d mask = mask :=
        (eq_of_pointwiseLe_of_count mask (stepMask st d mask)
          (by rw [hlen, length_stepMask]) (stepMask_mono st d mask hlen)
          (by omega)).symm
      refine ⟨stepMask st d mask, ?_, stepMask_mono st d mask hlen, ?_,
        length_stepMask st d mask⟩
      · simp only [navLoop, if_pos heq]
      · simp only [hmeq]
    · have hmono := stepMask_mono st d mask hlen
      have hlen2 := length_stepMask st d mask
      have hle := countTrue_le_of_pointwiseLe mask (stepMask st d mask)
        (by rw [hlen, hlen2]) hmono
      obtain ⟨m, h1, h2, h3, h4⟩ := ih (stepMask st d mask) hlen2 (by omega)
      refine ⟨m, ?_, ?_, h3, h4⟩
      · simp only [navLoop, if_neg heq]
        exact h1
      · intro p hp
        exact h2 p (hmono p hp)

theorem selIds_subset (st : Store) (mask : List Bool) :
    ∀ x ∈ selIds st mask, x ∈ st.id := by
  intro x hx
  rcases List.mem_map.1 hx with ⟨p, hp, rfl⟩
  have hpr : p < st.id.length := List.mem_range.1 (List.mem_filter.1 hp).1
  exact getD_mem_of_lt st.id p hpr 0

/-- Shared success lemma for `_navigate_tree` on a valid direction: loop
termination, monotone growth, fixed point, and the returned id field. -/
theorem navigateTree_ok (st : Store) (ids : List Int) (d : String)
    (hd : d = "down" ∨ d = "up") :
    ∃ m b, navLoop st d (st.id.length + 1) (initMask st ids) = some m ∧
      pointwiseLe (initMask st ids) m ∧ stepMask st d m = m ∧
      m.length = st.id.length ∧
      navigateTree st ids d = Except.ok b ∧ b.id = selIds st m := by
  obtain ⟨m, h1, h2, h3, h4⟩ := navLoop_some_of_fuel st d
    (st.id.length + 1) (initMask st ids) (length_initMask st ids)
    (by omega)
  obtain ⟨b, hb, hbid, -⟩ := get_ok st (selIds st m) (selIds_subset st m)
  refine ⟨m, b, h1, h2, h3, h4, ?_, hbid⟩
  rw [navigateTree, if_pos hd, h1]
  simp only [hb]

/-- `C4`: for a valid direction the closure loop of `_navigate_tree`
terminates within `store size + 1` passes: the final mask extends the
seed mask (monotone growth), is a fixed point of the pass (the loop exits
on the first pass that adds nothing), its cardinality is bounded by the
store size, and the call returns a result. -/
theorem navigateTree_terminates (st : Store) (ids : List Int) (d : String)
    (hd : d = "up" ∨ d = "down") :
    ∃ m b, navLoop st d (st.id.length + 1) (initMask st ids) = some m ∧
      pointwiseLe (initMask st ids) m ∧ stepMask st d m = m ∧
      countTrue m ≤ st.id.length ∧
      navigateTree st ids d = Except.ok b := by
  obtain ⟨m, b, h1, h2, h3, h4, h5, -⟩ := navigateTree_ok st ids d (by tauto)
  refine ⟨m, b, h1, h2, h3, ?_, h5⟩
  rw [← h4]
  exact countTrue_le_length m

/-- `C4` witness: the terminating descent from `A` on the fixture. -/
theorem navigateTree_terminates_witness :
    ∃ m b, navLoop fixtureStore "down" (fixtureStore.id.length + 1)
        (initMask fixtureStore [2]) = some m ∧
      pointwiseLe (initMask fixtureStore [2]) m ∧
      stepMask fixtureStore "down" m = m ∧
      countTrue m ≤ fixtureStore.id.length ∧
      navigateTree fixtureStore [2] "down" = Except.ok b :=
  navigateTree_terminates fixtureStore [2] "down" (Or.inr rfl)

/-! ### `_mapping_from_regions_list`: symmetrization and validation -/

theorem mem_symmetrize (a : Int) (s : List Int) :
    a ∈ symmetrize s ↔ -a ∈ s ∨ a ∈ s := by
  rw [symmetrize, mem_sortedUnique, List.mem_append, List.mem_map]
  constructor
  · rintro (⟨x, hx, rfl⟩ | h)
    · left; simpa using hx
    · right; exact h
  · rintro (h | h)
    · left; exact ⟨-a, h, neg_neg a⟩
    · right; exact h

theorem symmetrize_eq_of_mem (s t : List Int)
    (h : ∀ a, a ∈ symmetrize s ↔ a ∈ symmetrize t) :
    symmetrize s = symmetrize t := by
  rw [symmetrize, symmetrize]
  apply List.eq_of_perm_of_sorted _ (sorted_sortedUnique _)
    (sorted_sortedUnique _)
  rw [List.perm_ext_iff_of_nodup (nodup_sortedUnique _)
    (nodup_sortedUnique _)]
  intro a
  have ha := h a
  rwa [symmetrize, symmetrize] at ha

theorem symmetrize_neg (s : List Int) :
    symmetrize (s.map (fun x => -x)) = symmetrize s := by
  apply symmetrize_eq_of_mem
  intro a
  rw [mem_symmetrize, mem_symmetrize]
  simp only [List.mem_map]
  constructor
  · rintro (⟨x, hx, hxa⟩ | ⟨x, hx, hxa⟩)
    · right
      have hax : a = x := by omega
      rwa [hax]
    · left
      have hax : -a = x := by omega
      rwa [hax]
  · rintro (h | h)
    · right; exact ⟨-a, h, by omega⟩
    · left; exact ⟨a, h, rfl⟩

theorem symmetrize_abs (s : List Int) :
    symmetrize (s.map (fun x => (x.natAbs : Int))) = symmetrize s := by
  apply symmetrize_eq_of_mem
  intro a
  rw [mem_symmetrize, mem_symmetrize]
  simp only [List.mem_map]
  constructor
  · rintro (⟨x, hx, hxa⟩ | ⟨x, hx, hxa⟩)
    · rcases le_or_lt 0 x with h0 | h0
      · left
        have hax : -a = x := by rw [Int.natAbs_of_nonneg h0] at hxa; omega
        rwa [hax]
      · right
        have hax : a = x := by
          rw [Int.ofNat_natAbs_of_nonpos (le_of_lt h0)] at hxa; omega
        rwa [hax]
    · rcases le_or_lt 0 x with h0 | h0
      · right
        have hax : a = x := by rw [Int.natAbs_of_nonneg h0] at hxa; omega
        rwa [hax]
      · left
        have hax : -a = x := by
          rw [Int.ofNat_natAbs_of_nonpos (le_of_lt h0)] at hxa; omega
        rwa [hax]
  · rintro (h | h)
    · rcases le_or_lt 0 a with h0 | h0
      · right
        exact ⟨-a, h, by rw [Int.natAbs_neg, Int.natAbs_of_nonneg h0]⟩
      · left
        exact ⟨-a, h, Int.natAbs_of_nonneg (by omega)⟩
    · rcases le_or_lt 0 a with h0 | h0
      · right
        exact ⟨a, h, Int.natAbs_of_nonneg h0⟩
      · left
        exact ⟨a, h, Int.ofNat_natAbs_of_nonpos (le_of_lt h0)⟩

/-- `C10`: the mapping builder first symmetrizes its input into
`unique(-new_map ∪ new_map)`, so negating all scheme ids, or replacing
them by absolute values, builds the identical mapping array. -/
theorem mapping_sign_invariant (st : Store) (s : List Int) (lat : Bool) :
    mappingFromRegionsList st (s.map (fun x => -x)) lat =
      mappingFromRegionsList st s lat ∧
    mappingFromRegionsList st (s.map (fun x => (x.natAbs : Int))) lat =
      mappingFromRegionsList st s lat := by
  constructor
  · rw [mappingFromRegionsList, mappingFromRegionsList, symmetrize_neg]
  · rw [mappingFromRegionsList, mappingFromRegionsList, symmetrize_abs]

/-- `C6`: if any scheme id (or its mirror, after symmetrization) is
absent from the store, the builder's `assert` fails before any mapping is
computed: the result is `none`, never a partial array (and, the model
being a pure function, identical on every retry). -/
theorem mapping_invalid_ids_none (st : Store) (s : List Int) (lat : Bool)
    (h : ∃ x ∈ s, x ∉ st.id ∨ -x ∉ st.id) :
    mappingFromRegionsList st s lat = none := by
  rcases h with ⟨x, hx, hcase⟩
  rw [mappingFromRegionsList, mapFromNm, if_neg]
  intro hall
  rw [List.all_eq_true] at hall
  rcases hcase with hc | hc
  · exact hc (of_decide_eq_true
      (hall x ((mem_symmetrize x s).2 (Or.inr hx))))
  · exact hc (of_decide_eq_true
      (hall (-x) ((mem_symmetrize (-x) s).2 (Or.inl (by simpa using hx)))))

/-- `C6` witness: scheme id `99` is absent from the fixture store. -/
theorem mapping_invalid_ids_none_witness :
    mappingFromRegionsList fixtureStore [99] false = none :=
  mapping_invalid_ids_none fixtureStore [99] false
    ⟨99, by decide, Or.inl (by decide)⟩

/-! ### The assignment loop of `_mapping_from_regions_list` -/

theorem assignAll_cons (p : Nat) (ps : List Nat) (v : Nat) (m : List Nat) :
    assignAll (p :: ps) v m = assignAll ps v (m.set p v) :=
  rfl

theorem length_assignAll (ps : List Nat) (v : Nat) :
    ∀ m : List Nat, (assignAll ps v m).length = m.length := by
  induction ps with
  | nil => intro m; rfl
  | cons p ps ih =>
    intro m
    rw [assignAll_cons, ih, List.length_set]

theorem assignAll_getD_not_mem (ps : List Nat) (v : Nat) :
    ∀ (m : List Nat) (p : Nat), p ∉ ps →
      (assignAll ps v m).getD p 0 = m.getD p 0 := by
  induction ps with
  | nil => intro m p _; rfl
  | cons q ps ih =>
    intro m p hp
    rw [assignAll_cons, ih _ p (fun h => hp (List.mem_cons_of_mem q h)),
        getD_set_ne m q p v (fun h => hp (h ▸ List.mem_cons_self q ps))]

theorem assignAll_getD_mem (ps : List Nat) (v : Nat) :
    ∀ (m : List Nat) (p : Nat), p ∈ ps → p < m.length →
      (assignAll ps v m).getD p 0 = v := by
  induction ps with
  | nil => intro m p hp; cases hp
  | cons q ps ih =>
    intro m p hp hlt
    rw [assignAll_cons]
    by_cases hmem : p ∈ ps
    · exact ih _ p hmem (by rw [List.length_set]; exact hlt)
    · have hpq : p = q := by
        rcases List.mem_cons.1 hp with h | h
        · exact h
        · exact absurd h hmem
      subst hpq
      rw [assignAll_getD_not_mem ps v _ p hmem, getD_set_self m p v hlt]

theorem assignAll_mem_or (ps : List Nat) (v : Nat) :
    ∀ (m : List Nat) (a : Nat), a ∈ assignAll ps v m → a = v ∨ a ∈ m := by
  induction ps with
  | nil => intro m a ha; exact Or.inr ha
  | cons q ps ih =>
    intro m a ha
    rw [assignAll_cons] at ha
    rcases ih _ a ha with h | h
    · exact Or.inl h
    · rcases List.mem_or_eq_of_mem_set h with h2 | h2
      · exact Or.inr h2
      · exact Or.inl h2

theorem length_foldl_assign (pos : Nat → List Nat) (val : Nat → Nat) :
    ∀ (order : List Nat) (m : List Nat),
      (order.foldl (fun acc i => assignAll (pos i) (val i) acc) m).length =
        m.length := by
  intro order
  induction order with
  | nil => intro m; rfl
  | cons i order ih =>
    intro m
    rw [List.foldl_cons, ih, length_assignAll]

/-- The last-writer characterization of the assignment loop: position `p`
ends at the value written by the last loop iteration whose position set
contains `p`, or keeps its initial value if none does. -/
theorem foldl_assign_getD (pos : Nat → List Nat) (val : Nat → Nat) :
    ∀ (order : List Nat) (m : List Nat) (p : Nat), p < m.length →
      (order.foldl (fun acc i => assignAll (pos i) (val i) acc) m).getD p 0 =
      (match (order.filter (fun i => decide (p ∈ pos i))).getLast? with
       | some j => val j
       | none => m.getD p 0) := by
  intro order
  induction order using List.reverseRecOn with
  | nil => intro m p _; rfl
  | append_singleton l i ih =>
    intro m p hp
    rw [List.foldl_append, List.foldl_cons, List.foldl_nil,
        List.filter_append]
    by_cases hmem : p ∈ pos i
    · rw [assignAll_getD_mem _ _ _ p hmem
        (by rw [length_foldl_assign]; exact hp)]
      simp [hmem, List.getLast?_concat]
    · rw [assignAll_getD_not_mem _ _ _ p hmem, ih m p hp]
      simp [hmem]

theorem foldl_set_self_getD :
    ∀ (l : List Nat) (m : List Nat) (q : Nat), (∀ i ∈ l, i < m.length) →
      (l.foldl (fun acc p => acc.set p p) m).getD q 0 =
        if q ∈ l then q else m.getD q 0 := by
  intro l
  induction l with
  | nil => intro m q _; simp
  | cons p l ih =>
    intro m q hbound
    rw [List.foldl_cons, ih (m.set p p) q
      (fun i hi => by
        rw [List.length_set]; exact hbound i (List.mem_cons_of_mem p hi))]
    by_cases hql : q ∈ l
    · rw [if_pos hql, if_pos (List.mem_cons_of_mem p hql)]
    · rw [if_neg hql]
      by_cases hqp : q = p
      · subst hqp
        rw [if_pos (List.mem_cons_self q l),
            getD_set_self m q q (hbound q (List.mem_cons_self q l))]
      · rw [getD_set_ne m p q p (fun h => hqp h.symm),
            if_neg (by
              intro h
              rcases List.mem_cons.1 h with h2 | h2
              · exact hqp h2
              · exact hql h2)]

theorem length_foldl_set :
    ∀ (l : List Nat) (m : List Nat),
      (l.foldl (fun acc p => acc.set p p) m).length = m.length := by
  intro l
  induction l with
  | nil => intro m; rfl
  | cons p l ih =>
    intro m
    rw [List.foldl_cons, ih, List.length_set]

/-! ### `iid`, `argsort` and the `mapind` pipeline -/

theorem iid_lt (st : Store) (nm : List Int) :
    ∀ p ∈ iidOf st nm, p < st.id.length := by
  intro p hp
  exact List.mem_range.1 (List.mem_filter.1 hp).1

theorem iid_id_mem (st : Store) (nm : List Int) :
    ∀ p ∈ iidOf st nm, st.id.getD p 0 ∈ nm := by
  intro p hp
  exact of_decide_eq_true (List.mem_filter.1 hp).2

theorem iid_nodup (st : Store) (nm : List Int) : (iidOf st nm).Nodup :=
  (List.nodup_range _).filter _

theorem argsortLevels_perm (st : Store) (iid : List Nat) :
    (argsortLevels st iid).Perm (List.range iid.length) :=
  List.perm_insertionSort _ _

theorem argsortLevels_sorted (st : Store) (iid : List Nat) :
    (argsortLevels st iid).Sorted
      (fun a b => levelKey st iid a ≤ levelKey st iid b) := by
  haveI : IsTotal Nat (fun a b => levelKey st iid a ≤ levelKey st iid b) :=
    ⟨fun a b => Nat.le_total _ _⟩
  haveI : IsTrans Nat (fun a b => levelKey st iid a ≤ levelKey st iid b) :=
    ⟨fun a b c hab hbc => Nat.le_trans hab hbc⟩
  exact List.sorted_insertionSort _ _

theorem key_le_getLast_of_sorted (key : Nat → Nat) :
    ∀ (l : List Nat), l.Sorted (fun a b => key a ≤ key b) →
      ∀ j, l.getLast? = some j → ∀ x ∈ l, key x ≤ key j := by
  intro l
  induction l with
  | nil => intro _ j hj; cases hj
  | cons a t ih =>
    intro hs j hj x hx
    cases t with
    | nil =>
      have hja : j = a := by
        simp only [List.getLast?_singleton, Option.some.injEq] at hj
        exact hj.symm
      have hxa : x = a := by simpa using hx
      rw [hja, hxa]
    | cons b t2 =>
      rw [List.getLast?_cons_cons] at hj
      have hjmem : j ∈ b :: t2 :=
        List.mem_of_mem_getLast? (by rw [hj]; exact rfl)
      rw [List.sorted_cons] at hs
      rcases List.mem_cons.1 hx with h | h
      · rw [h]; exact hs.1 j hjmem
      · exact ih hs.2 j hj x h

theorem length_mapind1 (st : Store) (nm : List Int) :
    (mapind1Of st nm).length = st.id.length := by
  rw [mapind1Of, length_foldl_set, List.length_map, List.length_range]

theorem mapind1_getD (st : Store) (nm : List Int) (p : Nat)
    (hp : p < st.id.length) :
    (mapind1Of st nm).getD p 0 = if p ∈ iidOf st nm then p else 1 := by
  rw [mapind1Of, foldl_set_self_getD _ _ p
    (fun i hi => by
      rw [List.length_map, List.length_range]
      exact iid_lt st nm i hi)]
  by_cases hp2 : p ∈ iidOf st nm
  · rw [if_pos hp2, if_pos hp2]
  · rw [if_neg hp2, if_neg hp2,
        getD_map_of_lt _ (List.range st.id.length) p (by simpa using hp) 0 0]

theorem length_mapind2 (st : Store) (nm : List Int) :
    (mapind2Of st nm).length = st.id.length := by
  rw [mapind2Of, length_foldl_assign, length_mapind1]

theorem length_mapind3 (st : Store) (nm : List Int) :
    (mapind3Of st nm).length = st.id.length := by
  rw [mapind3Of, List.length_set, length_mapind2]

theorem mapind3_getD_zero (st : Store) (nm : List Int) :
    (mapind3Of st nm).getD 0 0 = 0 := by
  rw [mapind3Of]
  by_cases h : 0 < (mapind2Of st nm).length
  · exact getD_set_self _ 0 0 h
  · have hnil : mapind2Of st nm = [] :=
      List.eq_nil_of_length_eq_zero (by omega)
    rw [hnil]
    rfl

theorem mapind3_getD_ne_zero (st : Store) (nm : List Int) (p : Nat)
    (hp : p ≠ 0) :
    (mapind3Of st nm).getD p 0 = (mapind2Of st nm).getD p 0 := by
  rw [mapind3Of]
  exact getD_set_ne _ 0 p 0 (fun h => hp h.symm)

theorem coveredB_iff (st : Store) (nm : List Int) (p : Nat) :
    coveredB st nm p = true ↔
      ∃ i, i < (iidOf st nm).length ∧
        p ∈ memberWrites st (iidOf st nm) i := by
  rw [coveredB, List.any_eq_true]
  constructor
  · rintro ⟨i, hi, hdec⟩
    exact ⟨i, List.mem_range.1 hi, of_decide_eq_true hdec⟩
  · rintro ⟨i, hi, hmem⟩
    exact ⟨i, List.mem_range.2 hi, decide_eq_true hmem⟩

theorem memberWrites_lt (st : Store) (iid : List Nat) (i : Nat) :
    ∀ p ∈ memberWrites st iid i, p < st.id.length := by
  intro p hp
  exact List.mem_range.1 (List.mem_filter.1 hp).1

theorem initMask_getD_self (st : Store) (ids : List Int) (p : Nat)
    (hp : p < st.id.length) (hmem : st.id.getD p 0 ∈ ids) :
    (initMask st ids).getD p false = true := by
  rw [initMask, getD_map_of_lt _ st.id p hp false 0]
  exact decide_eq_true hmem

theorem mem_selIds_of_mask (st : Store) (m : List Bool) (p : Nat)
    (hp : p < st.id.length) (hm : m.getD p false = true) :
    st.id.getD p 0 ∈ selIds st m := by
  rw [selIds]
  exact List.mem_map.2 ⟨p, List.mem_filter.2
    ⟨List.mem_range.2 hp, hm⟩, rfl⟩

theorem self_mem_descendantsIdField (st : Store) (p : Nat)
    (hp : p < st.id.length) :
    st.id.getD p 0 ∈ descendantsIdField st (st.id.getD p 0) := by
  obtain ⟨m, b, h1, h2, h3, h4, h5, h6⟩ :=
    navigateTree_ok st [st.id.getD p 0] "down" (Or.inl rfl)
  have hdesc : descendantsIdField st (st.id.getD p 0) = selIds st m := by
    rw [descendantsIdField, h5]
    exact h6
  rw [hdesc]
  exact mem_selIds_of_mask st m p hp
    (h2 p (initMask_getD_self st _ p hp (by simp)))

theorem covered_of_mem_iid (st : Store) (nm : List Int)
    (hnodup : st.id.Nodup) (p : Nat) (hp : p ∈ iidOf st nm) :
    coveredB st nm p = true := by
  rw [coveredB_iff]
  refine ⟨(iidOf st nm).indexOf p, List.indexOf_lt_length.2 hp, ?_⟩
  rw [memberWrites, getD_indexOf hp 0, idescOf]
  apply List.mem_filter.2
  refine ⟨List.mem_range.2 (iid_lt st nm p hp), ?_⟩
  apply decide_eq_true
  exact ⟨self_mem_descendantsIdField st p (iid_lt st nm p hp),
    indexOf_getD_of_nodup hnodup (iid_lt st nm p hp) 0⟩

theorem mapind2_getD (st : Store) (nm : List Int) (p : Nat)
    (hp : p < st.id.length) :
    (mapind2Of st nm).getD p 0 =
    (match ((argsortLevels st (iidOf st nm)).filter
        (fun i => decide (p ∈ memberWrites st (iidOf st nm) i))).getLast? with
     | some j => (iidOf st nm).getD j 0
     | none => (mapind1Of st nm).getD p 0) := by
  rw [mapind2Of]
  exact foldl_assign_getD (fun i => memberWrites st (iidOf st nm) i)
    (fun i => (iidOf st nm).getD i 0) (argsortLevels st (iidOf st nm))
    (mapind1Of st nm) p (by rw [length_mapind1]; exact hp)

theorem mapind2_getD_uncovered (st : Store) (nm : List Int) (p : Nat)
    (hp : p < st.id.length) (hunc : coveredB st nm p = false) :
    (mapind2Of st nm).getD p 0 = (mapind1Of st nm).getD p 0 := by
  rw [mapind2_getD st nm p hp]
  have hfil : (argsortLevels st (iidOf st nm)).filter
      (fun i => decide (p ∈ memberWrites st (iidOf st nm) i)) = [] := by
    rw [List.filter_eq_nil_iff]
    intro i hi hdec
    have hilt : i < (iidOf st nm).length :=
      List.mem_range.1 ((argsortLevels_perm st _).mem_iff.1 hi)
    have hcov : coveredB st nm p = true :=
      (coveredB_iff st nm p).2 ⟨i, hilt, of_decide_eq_true hdec⟩
    rw [hunc] at hcov
    cases hcov
  rw [hfil]
  rfl

theorem foldl_set_self_values :
    ∀ (l : List Nat) (m : List Nat) (a : Nat),
      a ∈ l.foldl (fun acc p => acc.set p p) m → a ∈ l ∨ a ∈ m := by
  intro l
  induction l with
  | nil => intro m a ha; exact Or.inr ha
  | cons p l ih =>
    intro m a ha
    rw [List.foldl_cons] at ha
    rcases ih _ a ha with h | h
    · exact Or.inl (List.mem_cons_of_mem p h)
    · rcases List.mem_or_eq_of_mem_set h with h2 | h2
      · exact Or.inr h2
      · exact Or.inl (h2 ▸ List.mem_cons_self p l)

theorem foldl_assign_values (pos : Nat → List Nat) (val : Nat → Nat)
    (P : Nat → Prop) :
    ∀ (order : List Nat) (m : List Nat), (∀ v ∈ m, P v) →
      (∀ i ∈ order, P (val i)) →
      ∀ v ∈ order.foldl (fun acc i => assignAll (pos i) (val i) acc) m,
        P v := by
  intro order
  induction order with
  | nil => intro m hm _ v hv; exact hm v hv
  | cons i order ih =>
    intro m hm hval v hv
    rw [List.foldl_cons] at hv
    refine ih (assignAll (pos i) (val i) m) ?_
      (fun j hj => hval j (List.mem_cons_of_mem i hj)) v hv
    intro w hw
    rcases assignAll_mem_or (pos i) (val i) m w hw with h | h
    · exact h ▸ hval i (List.mem_cons_self i order)
    · exact hm w h

theorem mapind1_values (st : Store) (nm : List Int) :
    ∀ v ∈ mapind1Of st nm, v = 1 ∨ v ∈ iidOf st nm := by
  intro v hv
  rw [mapind1Of] at hv
  rcases foldl_set_self_values _ _ v hv with h | h
  · exact Or.inr h
  · left
    rcases List.mem_map.1 h with ⟨_, _, hval⟩
    exact hval.symm

theorem mapind2_values (st : Store) (nm : List Int) :
    ∀ v ∈ mapind2Of st nm, v = 1 ∨ v ∈ iidOf st nm := by
  rw [mapind2Of]
  apply foldl_assign_values _ _ _ _ _ (mapind1_values st nm)
  intro i hi
  have hilt : i < (iidOf st nm).length :=
    List.mem_range.1 ((argsortLevels_perm st _).mem_iff.1 hi)
  exact Or.inr (getD_mem_of_lt _ i hilt 0)

theorem mapind3_values (st : Store) (nm : List Int) :
    ∀ v ∈ mapind3Of st nm, v = 0 ∨ v = 1 ∨ v ∈ iidOf st nm := by
  intro v hv
  rw [mapind3Of] at hv
  rcases List.mem_or_eq_of_mem_set hv with h | h
  · rcases mapind2_values st nm v h with h2 | h2
    · exact Or.inr (Or.inl h2)
    · exact Or.inr (Or.inr h2)
  · exact Or.inl h

theorem mapind3_getD_uncovered (st : Store) (nm : List Int)
    (hnodup : st.id.Nodup) (p : Nat) (hp : p < st.id.length) (hp0 : p ≠ 0)
    (hunc : coveredB st nm p = false) :
    (mapind3Of st nm).getD p 0 = 1 := by
  rw [mapind3_getD_ne_zero st nm p hp0, mapind2_getD_uncovered st nm p hp
      hunc, mapind1_getD st nm p hp, if_neg]
  intro hmem
  have hcov := covered_of_mem_iid st nm hnodup p hmem
  rw [hunc] at hcov
  cases hcov

theorem iregion_eq (st : Store)
    (habs : ∀ x ∈ st.id, ((x.natAbs : Int)) ∈ st.id) :
    iregionOf st = (st.id.map (fun x => ((x.natAbs : Int)))).map
      (fun v => st.id.indexOf v) := by
  rw [iregionOf, List.filter_eq_self.2]
  intro a ha
  rcases List.mem_map.1 ha with ⟨x, hx, rfl⟩
  exact decide_eq_true (habs x hx)

theorem length_iregion (st : Store)
    (habs : ∀ x ∈ st.id, ((x.natAbs : Int)) ∈ st.id) :
    (iregionOf st).length = st.id.length := by
  rw [iregion_eq st habs, List.length_map, List.length_map]

theorem iregion_getD (st : Store)
    (habs : ∀ x ∈ st.id, ((x.natAbs : Int)) ∈ st.id) (p : Nat)
    (hp : p < st.id.length) :
    (iregionOf st).getD p 0 =
      st.id.indexOf (((st.id.getD p 0).natAbs : Int)) := by
  rw [iregion_eq st habs,
      getD_map_of_lt _ _ p (by rw [List.length_map]; exact hp) 0 0,
      getD_map_of_lt _ st.id p hp 0 0]

/-- `C7`: every mapping array the builder produces satisfies, under the
data-model invariants of the store (unique ids, void id `0` at position
0, unsigned ids present, hemisphere-symmetric coverage): position 0 maps
to itself (void to void); positions not written by any scheme member map
to the root position `1`; and every value is the void sentinel `0`, the
root sentinel `1`, or the store position of a symmetrized scheme
member. -/
theorem mapping_invariants (st : Store) (s : List Int) (lat : Bool)
    (mp : List Nat) (h : mappingFromRegionsList st s lat = some mp)
    (hnodup : st.id.Nodup)
    (hvoid : st.id.getD 0 0 = 0)
    (huniq0 : ∀ p, p < st.id.length → p ≠ 0 → st.id.getD p 0 ≠ 0)
    (habs : ∀ x ∈ st.id, ((x.natAbs : Int)) ∈ st.id)
    (hsym : ∀ p, p < st.id.length →
      coveredB st (symmetrize s)
          (st.id.indexOf (((st.id.getD p 0).natAbs : Int))) =
        coveredB st (symmetrize s) p) :
    mp.getD 0 0 = 0 ∧
    (∀ p, p < st.id.length → p ≠ 0 →
      coveredB st (symmetrize s) p = false → mp.getD p 0 = 1) ∧
    (∀ v ∈ mp, v = 0 ∨ v = 1 ∨
      (v < st.id.length ∧ st.id.getD v 0 ∈ symmetrize s)) := by
  rw [mappingFromRegionsList, mapFromNm] at h
  by_cases hall : ((symmetrize s).all (fun x => decide (x ∈ st.id))) = true
  · rw [if_pos hall] at h
    have hval3 : ∀ v ∈ mapind3Of st (symmetrize s), v = 0 ∨ v = 1 ∨
        (v < st.id.length ∧ st.id.getD v 0 ∈ symmetrize s) := by
      intro v hv
      rcases mapind3_values st (symmetrize s) v hv with h0 | h1 | h2
      · exact Or.inl h0
      · exact Or.inr (Or.inl h1)
      · exact Or.inr (Or.inr ⟨iid_lt st _ v h2, iid_id_mem st _ v h2⟩)
    cases lat with
    | true =>
      rw [if_pos rfl] at h
      have hmp : mp = mapind3Of st (symmetrize s) :=
        (Option.some_inj.1 h).symm
      subst hmp
      refine ⟨mapind3_getD_zero st _, ?_, hval3⟩
      intro p hp hp0 hunc
      exact mapind3_getD_uncovered st _ hnodup p hp hp0 hunc
    | false =>
      rw [if_neg (by simp)] at h
      have hmp : mp = (iregionOf st).map
          (fun q => (mapind3Of st (symmetrize s)).getD q 0) :=
        (Option.some_inj.1 h).symm
      subst hmp
      refine ⟨?_, ?_, ?_⟩
      · -- position 0
        by_cases hn : 0 < st.id.length
        · rw [getD_map_of_lt _ (iregionOf st) 0
              (by rw [length_iregion st habs]; exact hn) 0 0,
              iregion_getD st habs 0 hn, hvoid]
          have h00 : st.id.indexOf (((0 : Int).natAbs : Int)) = 0 := by
            have := indexOf_getD_of_nodup hnodup hn (0 : Int)
            rwa [hvoid] at this
          rw [h00, mapind3_getD_zero st _]
        · have hlen : (iregionOf st).length = 0 := by
            rw [length_iregion st habs]; omega
          rw [List.getD_eq_default _ _ (by rw [List.length_map]; omega)]
      · -- uncovered positions map to root
        intro p hp hp0 hunc
        rw [getD_map_of_lt _ (iregionOf st) p
            (by rw [length_iregion st habs]; exact hp) 0 0,
            iregion_getD st habs p hp]
        have hidp : st.id.getD p 0 ∈ st.id := getD_mem_of_lt st.id p hp 0
        have hq_mem : (((st.id.getD p 0).natAbs : Int)) ∈ st.id :=
          habs _ hidp
        have hq_lt : st.id.indexOf (((st.id.getD p 0).natAbs : Int)) <
            st.id.length := List.indexOf_lt_length.2 hq_mem
        have hq_ne : st.id.indexOf (((st.id.getD p 0).natAbs : Int)) ≠ 0 := by
          intro hq0
          have hval := getD_indexOf hq_mem 0
          rw [hq0, hvoid] at hval
          have : st.id.getD p 0 = 0 := by omega
          exact huniq0 p hp hp0 this
        have hq_unc : coveredB st (symmetrize s)
            (st.id.indexOf (((st.id.getD p 0).natAbs : Int))) = false := by
          rw [hsym p hp]; exact hunc
        exact mapind3_getD_uncovered st _ hnodup _ hq_lt hq_ne hq_unc
      · -- value invariant
        intro v hv
        rcases List.mem_map.1 hv with ⟨q, _, rfl⟩
        by_cases hq : q < (mapind3Of st (symmetrize s)).length
        · exact hval3 _ (getD_mem_of_lt _ q hq 0)
        · rw [List.getD_eq_default _ _ (by omega)]
          exact Or.inl rfl
  · rw [if_neg hall] at h
    cases h

/-- `C7` witness: the invariants instantiated on the fixture store for the
delateralized `{A}` mapping. -/
theorem mapping_invariants_witness :
    ([0, 1, 2, 2, 2, 2, 1, 2, 2, 2, 2] : List Nat).getD 0 0 = 0 ∧
    (∀ p, p < fixtureStore.id.length → p ≠ 0 →
      coveredB fixtureStore (symmetrize [2]) p = false →
      ([0, 1, 2, 2, 2, 2, 1, 2, 2, 2, 2] : List Nat).getD p 0 = 1) ∧
    (∀ v ∈ ([0, 1, 2, 2, 2, 2, 1, 2, 2, 2, 2] : List Nat), v = 0 ∨ v = 1 ∨
      (v < fixtureStore.id.length ∧
        fixtureStore.id.getD v 0 ∈ symmetrize [2])) :=
  mapping_invariants fixtureStore [2] false [0, 1, 2, 2, 2, 2, 1, 2, 2, 2, 2]
    (by decide) (by decide) (by decide) (by decide) (by decide) (by decide)

/-- `C5`: in a produced lateralized mapping array, every non-void position
`p` written by at least one scheme member ends at the store position of a
member whose descendant set contains `p` and whose level is maximal among
such members — the deepest containing member wins because members are
processed in ascending level order and later (deeper) members overwrite.
When the deepest containing member is unique, `p` maps exactly to it.
On the spec's fixture tree `root → A → {B, C}`, `B → {D}`, the scheme
`{A}` maps the positions of `A, B, C, D` (2–5) to `A`'s position 2, maps
the non-void positions outside `A`'s (mirrored) subtree to root's
position 1, and pins void to 0. -/
theorem mapping_deepest_member (st : Store) (s : List Int) (mp : List Nat)
    (h : mappingFromRegionsList st s true = some mp)
    (p : Nat) (hp : p < st.id.length) (hp0 : p ≠ 0)
    (hcov : coveredB st (symmetrize s) p = true) :
    (∃ i, i < (iidOf st (symmetrize s)).length ∧
      p ∈ memberWrites st (iidOf st (symmetrize s)) i ∧
      mp.getD p 0 = (iidOf st (symmetrize s)).getD i 0 ∧
      (∀ j, j < (iidOf st (symmetrize s)).length →
        p ∈ memberWrites st (iidOf st (symmetrize s)) j →
        levelKey st (iidOf st (symmetrize s)) j ≤
          levelKey st (iidOf st (symmetrize s)) i) ∧
      (∀ j, j < (iidOf st (symmetrize s)).length →
        p ∈ memberWrites st (iidOf st (symmetrize s)) j →
        (∀ j2, j2 < (iidOf st (symmetrize s)).length →
          p ∈ memberWrites st (iidOf st (symmetrize s)) j2 → j2 ≠ j →
          levelKey st (iidOf st (symmetrize s)) j2 <
            levelKey st (iidOf st (symmetrize s)) j) →
        mp.getD p 0 = (iidOf st (symmetrize s)).getD j 0)) ∧
    mappingFromRegionsList fixtureStore [2] false =
      some [0, 1, 2, 2, 2, 2, 1, 2, 2, 2, 2] := by
  constructor
  · rw [mappingFromRegionsList, mapFromNm] at h
    by_cases hall : ((symmetrize s).all (fun x => decide (x ∈ st.id))) = true
    · rw [if_pos hall, if_pos rfl] at h
      have hmp : mp = mapind3Of st (symmetrize s) :=
        (Option.some_inj.1 h).symm
      subst hmp
      obtain ⟨i0, hi0, hw0⟩ := (coveredB_iff st (symmetrize s) p).1 hcov
      have hwriters_ne : (argsortLevels st (iidOf st (symmetrize s))).filter
          (fun i => decide (p ∈ memberWrites st (iidOf st (symmetrize s)) i))
          ≠ [] := by
        intro hnil
        rw [List.filter_eq_nil_iff] at hnil
        exact hnil i0
          ((argsortLevels_perm st _).mem_iff.2 (List.mem_range.2 hi0))
          (decide_eq_true hw0)
      set writers := (argsortLevels st (iidOf st (symmetrize s))).filter
        (fun i => decide (p ∈ memberWrites st (iidOf st (symmetrize s)) i))
        with hwdef
      have hlast : writers.getLast? = some (writers.getLast hwriters_ne) :=
        List.getLast?_eq_getLast writers hwriters_ne
      have hjmem : writers.getLast hwriters_ne ∈ writers :=
        List.getLast_mem hwriters_ne
      have hjsort : writers.getLast hwriters_ne ∈
          argsortLevels st (iidOf st (symmetrize s)) :=
        List.mem_of_mem_filter hjmem
      have hjlt : writers.getLast hwriters_ne <
          (iidOf st (symmetrize s)).length :=
        List.mem_range.1 ((argsortLevels_perm st _).mem_iff.1 hjsort)
      have hjw : p ∈ memberWrites st (iidOf st (symmetrize s))
          (writers.getLast hwriters_ne) :=
        of_decide_eq_true (List.mem_filter.1 hjmem).2
      have hmpval : (mapind3Of st (symmetrize s)).getD p 0 =
          (iidOf st (symmetrize s)).getD (writers.getLast hwriters_ne) 0 := by
        rw [mapind3_getD_ne_zero st _ p hp0, mapind2_getD st _ p hp,
            ← hwdef, hlast]
      have hsorted : writers.Sorted (fun a b =>
          levelKey st (iidOf st (symmetrize s)) a ≤
            levelKey st (iidOf st (symmetrize s)) b) :=
        (argsortLevels_sorted st (iidOf st (symmetrize s))).sublist
          (List.filter_sublist _)
      have hmax : ∀ j, j < (iidOf st (symmetrize s)).length →
          p ∈ memberWrites st (iidOf st (symmetrize s)) j →
          levelKey st (iidOf st (symmetrize s)) j ≤
            levelKey st (iidOf st (symmetrize s))
              (writers.getLast hwriters_ne) := by
        intro j hjlen hjw2
        apply key_le_getLast_of_sorted _ writers hsorted _ hlast
        rw [hwdef]
        exact List.mem_filter.2
          ⟨(argsortLevels_perm st _).mem_iff.2 (List.mem_range.2 hjlen),
            decide_eq_true hjw2⟩
      refine ⟨writers.getLast hwriters_ne, hjlt, hjw, hmpval, hmax, ?_⟩
      intro j hjlen hjw2 huniq
      by_cases hjj : writers.getLast hwriters_ne = j
      · rw [hmpval, hjj]
      · exfalso
        have h1 := huniq (writers.getLast hwriters_ne) hjlt hjw hjj
        have h2 := hmax j hjlen hjw2
        omega
    · rw [if_neg hall] at h
      cases h
  · decide

/-- `C5` witness: position 3 (region `B`) of the fixture under the
lateralized `{A}` scheme. -/
theorem mapping_deepest_member_witness :
    (∃ i, i < (iidOf fixtureStore (symmetrize [2])).length ∧
      3 ∈ memberWrites fixtureStore (iidOf fixtureStore (symmetrize [2])) i ∧
      ([0, 1, 2, 2, 2, 2, 1, 7, 7, 7, 7] : List Nat).getD 3 0 =
        (iidOf fixtureStore (symmetrize [2])).getD i 0 ∧
      (∀ j, j < (iidOf fixtureStore (symmetrize [2])).length →
        3 ∈ memberWrites fixtureStore (iidOf fixtureStore (symmetrize [2])) j →
        levelKey fixtureStore (iidOf fixtureStore (symmetrize [2])) j ≤
          levelKey fixtureStore (iidOf fixtureStore (symmetrize [2])) i) ∧
      (∀ j, j < (iidOf fixtureStore (symmetrize [2])).length →
        3 ∈ memberWrites fixtureStore (iidOf fixtureStore (symmetrize [2])) j →
        (∀ j2, j2 < (iidOf fixtureStore (symmetrize [2])).length →
          3 ∈ memberWrites fixtureStore
            (iidOf fixtureStore (symmetrize [2])) j2 → j2 ≠ j →
          levelKey fixtureStore (iidOf fixtureStore (symmetrize [2])) j2 <
            levelKey fixtureStore (iidOf fixtureStore (symmetrize [2])) j) →
        ([0, 1, 2, 2, 2, 2, 1, 7, 7, 7, 7] : List Nat).getD 3 0 =
          (iidOf fixtureStore (symmetrize [2])).getD j 0)) ∧
    mappingFromRegionsList fixtureStore [2] false =
      some [0, 1, 2, 2, 2, 2, 1, 2, 2, 2, 2] :=
  mapping_deepest_member fixtureStore [2] [0, 1, 2, 2, 2, 2, 1, 7, 7, 7, 7]
    (by decide) 3 (by decide) (by decide) (by decide)

/-! ### `remap` -/

/-- `C8`: `remap` from a scheme's mapping array to the same array is the
identity on every id that is canonical in that scheme — i.e. equals the
id of its own representative under the mapping array. -/
theorem remap_self_identity (st : Store) (m : List Nat) (xs : List Int)
    (h : ∀ x ∈ xs, ∃ p, p < m.length ∧ st.id.getD p 0 = x ∧
      st.id.getD (m.getD p 0) 0 = x) :
    remap st m m xs = xs := by
  have hsrc : ∀ x ∈ xs, x ∈ m.map (fun q => st.id.getD q 0) := by
    intro x hx
    obtain ⟨p, hplen, _, hrep⟩ := h x hx
    have hval : (m.map (fun q => st.id.getD q 0)).getD p 0 = x := by
      rw [getD_map_of_lt _ m p hplen 0 0]
      exact hrep
    rw [← hval]
    exact getD_mem_of_lt _ p (by rw [List.length_map]; exact hplen) 0
  simp only [remap]
  rw [List.filter_eq_self.2 (fun a ha => decide_eq_true (hsrc a ha))]
  apply list_ext_getD 0
  · rw [List.length_map, List.length_map]
  · intro k hk
    rw [List.length_map, List.length_map] at hk
    rw [getD_map_of_lt _ _ k (by rw [List.length_map]; exact hk) 0 0,
        getD_map_of_lt _ xs k hk 0 0]
    have hx : xs.getD k 0 ∈ xs := getD_mem_of_lt xs k hk 0
    have hxm := hsrc _ hx
    have hjlt : (m.map (fun q => st.id.getD q 0)).indexOf (xs.getD k 0) <
        m.length := by
      have := List.indexOf_lt_length.2 hxm
      rwa [List.length_map] at this
    have h1 : (m.map (fun q => st.id.getD q 0)).getD
        ((m.map (fun q => st.id.getD q 0)).indexOf (xs.getD k 0)) 0 =
        xs.getD k 0 := getD_indexOf hxm 0
    rw [getD_map_of_lt _ m _ hjlt 0 0] at h1
    exact h1

/-- `C8` witness: the canonical ids `A = 2` (scheme member) and
`root = 1` under the fixture's delateralized `{A}` mapping array. -/
theorem remap_self_identity_witness :
    remap fixtureStore [0, 1, 2, 2, 2, 2, 1, 2, 2, 2, 2]
      [0, 1, 2, 2, 2, 2, 1, 2, 2, 2, 2] [2, 1] = [2, 1] :=
  remap_self_identity fixtureStore [0, 1, 2, 2, 2, 2, 1, 2, 2, 2, 2] [2, 1]
    (by
      intro x hx
      rcases List.mem_cons.1 hx with rfl | hx2
      · exact ⟨2, by decide, by decide, by decide⟩
      · rcases List.mem_cons.1 hx2 with rfl | hx3
        · exact ⟨1, by decide, by decide, by decide⟩
        · cases hx3)

/-! ### Hemisphere offsets (`_filter_lr_acro` and the lateralized layout) -/

/-- `C9` counterexample: on the 6-row fixture table (void + 5 regions),
the left-hemisphere copy of original row 1 sits at offset
`count - 1 = 5`, not at offset `count = 6` (the count of unlateralized
rows includes the never-mirrored void row), so the separation offset is
not the count of unlateralized rows. -/
theorem hemisphere_offset_counterexample :
    ((lateralizeRows fixtureRows).getD (1 + (fixtureRows.length - 1))
        blankRow).id = -((fixtureRows.getD 1 blankRow).id) ∧
    ¬ (((lateralizeRows fixtureRows).getD (1 + fixtureRows.length)
        blankRow).id = -((fixtureRows.getD 1 blankRow).id)) := by
  decide

/-- `C9` (amended): the hemisphere offset equals the count of mirrored
(positive-id) rows — the unlateralized row count minus the void row, not
the full unlateralized count: the left copy of original row `p ≥ 1` sits
at `p + (n0 - 1)` for an `n0`-row source table whose row 0 is the
non-positive void row.  For the production 1328-row table this is the
constant `1327` hardcoded in `_filter_lr_acro`: `left` adds it to each
index, `right` leaves indices unmodified, and an unspecified hemisphere
on a lateralized (`'lr'`) scheme returns index pairs with the
left-hemisphere index first. -/
theorem hemisphere_offset_spec (rows : List Row) (p : Nat)
    (hne : rows ≠ [])
    (h0 : (rows.getD 0 blankRow).id ≤ 0)
    (hpos : ∀ r ∈ rows.tail, 0 < r.id)
    (hp1 : 1 ≤ p) (hplen : p < rows.length)
    (vs : List Nat) (mapping : String) :
    (lateralizeRows rows).getD (p + (rows.length - 1)) blankRow =
      mirrorRow (rows.getD p blankRow) ∧
    (rows.length = 1328 → rows.length - 1 = 1327) ∧
    filterLrAcro vs mapping (some "left") =
      Sum.inl (vs.map (fun v => v + 1327)) ∧
    filterLrAcro vs mapping (some "right") = Sum.inl vs ∧
    ((mapping.splitOn "lr").length > 1 →
      filterLrAcro vs mapping none =
        Sum.inr (vs.map (fun v => (v + 1327, v)))) := by
  refine ⟨?_, by omega, rfl, rfl, ?_⟩
  · cases rows with
    | nil => exact absurd rfl hne
    | cons r0 rest =>
      obtain ⟨q, rfl⟩ : ∃ q, p = q + 1 := ⟨p - 1, by omega⟩
      have hr0 : ¬ (0 < r0.id) := by
        rw [List.getD_cons_zero] at h0
        omega
      have hfil : (r0 :: rest).filter (fun r => decide (0 < r.id)) =
          rest := by
        rw [List.filter_cons, if_neg (by simpa using hr0)]
        exact List.filter_eq_self.2
          (fun r hr => decide_eq_true (hpos r hr))
      rw [lateralizeRows, hfil]
      have hqlen : q < rest.length := by
        have := hplen
        simp only [List.length_cons] at this
        omega
      have hidx : q + 1 + ((r0 :: rest).length - 1) =
          (r0 :: rest).length + q := by
        simp only [List.length_cons]
        omega
      rw [hidx, List.getD_eq_getElem _ _ (by
          rw [List.length_append, List.length_map, List.length_cons]
          omega),
        List.getElem_append_right (by
          rw [List.length_cons]; omega)]
      have hsub : (r0 :: rest).length + q - (r0 :: rest).length = q := by
        omega
      rw [List.getD_cons_succ,
          List.getD_eq_getElem _ _ hqlen]
      simp only [hsub, List.getElem_map]
  · intro hlr
    rw [filterLrAcro, if_neg (by simp), if_neg (by simp), if_pos hlr]

/-- `C9` witness: the amended statement instantiated on the fixture
table, row 1, with a concrete index vector and a lateralized scheme
name. -/
theorem hemisphere_offset_spec_witness :
    (lateralizeRows fixtureRows).getD (1 + (fixtureRows.length - 1))
        blankRow = mirrorRow (fixtureRows.getD 1 blankRow) ∧
    (fixtureRows.length = 1328 → fixtureRows.length - 1 = 1327) ∧
    filterLrAcro [3] "Beryl-lr" (some "left") =
      Sum.inl ([3].map (fun v => v + 1327)) ∧
    filterLrAcro [3] "Beryl-lr" (some "right") = Sum.inl [3] ∧
    (("Beryl-lr".splitOn "lr").length > 1 →
      filterLrAcro [3] "Beryl-lr" none =
        Sum.inr ([3].map (fun v => (v + 1327, v)))) :=
  hemisphere_offset_spec fixtureRows 1 (by decide) (by decide)
    (by decide) (by decide) (by decide) [3] "Beryl-lr"

end IblAtlas
